import Mathlib

/-!
Verification of the fire-and-smoke Perlin renderer (`Main.cpp`).

The CPU noise generator, the volume bake loop, the smoke fragment shader's
arithmetic, the keyboard clamp loop and the blend equations are embedded
shallowly: float arithmetic is modelled exactly over `ℚ` (and over `ℝ` where
the shader uses `sin`), machine integers over `Nat`/`Int` with explicit
`% 2^32` where the C++ relies on unsigned wrap-around.
-/

namespace FireSmoke

/-! ## Permutation table — `Perlin3D::Perlin3D` (Main.cpp lines 80–91) -/

/-- One step of the LCG used by the constructor's shuffle:
`s = s * 1664525u + 1013904223u` on a 32-bit unsigned. -/
def lcg (s : Nat) : Nat := (s * 1664525 + 1013904223) % 4294967296

/-- Models `std::swap(perm[i], perm[j])` on a list (no-op out of bounds, which the
shuffle never hits). -/
def swapL (l : List Nat) (i j : Nat) : List Nat :=
  (l.set i (l.getD j 0)).set j (l.getD i 0)

/-- The Fisher–Yates loop `for (int i = 255; i > 0; --i)`: fuel counts the
current `i`, the LCG state is threaded through. -/
def shuffleAux : Nat → Nat → List Nat → List Nat
  | 0, _, l => l
  | k + 1, s, l =>
    let s' := lcg s
    shuffleAux k s' (swapL l (k + 1) (s' % (k + 2)))

/-- The 256-entry shuffled permutation `perm` produced by the constructor from
the identity sequence `0..255` (`unsigned s = seed` wraps the seed to 32 bits). -/
def permList (seed : Nat) : List Nat :=
  shuffleAux 255 (seed % 4294967296) (List.range 256)

/-- The 512-entry table `p`, `p[i] = perm[i & 255]`, read as a total function
(the C++ array is only ever indexed below 512). -/
def pTable (seed : Nat) (i : Nat) : Nat := (permList seed).getD (i % 256) 0

/-! ## 3D Perlin noise — `fade`, `lerp`, `grad`, `Perlin3D::noise`
(Main.cpp lines 68–111) -/

/-- Source `fade(t) = t*t*t*(t*(t*6-15)+10)`. -/
def fade (t : ℚ) : ℚ := t * t * t * (t * (t * 6 - 15) + 10)

/-- Source `lerp(a,b,t) = a + (b-a)*t`. -/
def lerp (a b t : ℚ) : ℚ := a + (b - a) * t

/-- Source `grad(hash,x,y,z)`: `h = hash & 15`; `u = h<8 ? x : y`;
`v = h<4 ? y : (h==12||h==14 ? x : z)`; result `(h&1 ? -u : u) + (h&2 ? -v : v)`. -/
def grad (hash : Nat) (x y z : ℚ) : ℚ :=
  let h := hash % 16
  let u := if h < 8 then x else y
  let v := if h < 4 then y else if h = 12 ∨ h = 14 then x else z
  (if h % 2 = 1 then -u else u) + (if h / 2 % 2 = 1 then -v else v)

/-- Body of `Perlin3D::noise` after the cell/fraction split: `X Y Z` are the
wrapped lattice coordinates, `xf yf zf` the fractional offsets. -/
def noiseCore (p : Nat → Nat) (X Y Z : Nat) (xf yf zf : ℚ) : ℚ :=
  let u := fade xf
  let v := fade yf
  let w := fade zf
  let A := p X + Y
  let AA := p A + Z
  let AB := p (A + 1) + Z
  let B := p (X + 1) + Y
  let BA := p B + Z
  let BB := p (B + 1) + Z
  let res := lerp
    (lerp (lerp (grad (p AA) xf yf zf) (grad (p BA) (xf - 1) yf zf) u)
          (lerp (grad (p AB) xf (yf - 1) zf) (grad (p BB) (xf - 1) (yf - 1) zf) u) v)
    (lerp (lerp (grad (p (AA + 1)) xf yf (zf - 1)) (grad (p (BA + 1)) (xf - 1) yf (zf - 1)) u)
          (lerp (grad (p (AB + 1)) xf (yf - 1) (zf - 1))
                (grad (p (BB + 1)) (xf - 1) (yf - 1) (zf - 1)) u) v)
    w
  0.5 * (res + 1)

/-- Source `Perlin3D::noise(x,y,z)`: `X = (int)floorf(x) & 255` (two's-complement
`& 255` on a possibly negative int is `% 256` with nonnegative result, i.e.
`Int.emod`), `x -= floorf(x)`. -/
def noise (seed : Nat) (x y z : ℚ) : ℚ :=
  noiseCore (pTable seed)
    (⌊x⌋ % 256).toNat (⌊y⌋ % 256).toNat (⌊z⌋ % 256).toNat
    (x - ⌊x⌋) (y - ⌊y⌋) (z - ⌊z⌋)

/-! ## Volume bake — `clamp01` (Main.cpp lines 18–19) and `make3DNoiseTex`
(lines 114–132) -/

/-- Source `clamp01(v) = v < 0 ? 0 : (v > 1 ? 1 : v)`. -/
def clamp01 (v : ℚ) : ℚ := if v < 0 then 0 else if 1 < v then 1 else v

/-- Models `std::round`: round half away from zero. -/
def roundAway (q : ℚ) : ℤ := if q < 0 then -⌊-q + 0.5⌋ else ⌊q + 0.5⌋

/-- The fBm accumulator of the bake loop, lines 123–127: fuel is the remaining
octave count, `f`/`amp`/`freq` are the loop-carried values. -/
def fbmAux (seed : Nat) (fx fy fz lac gain : ℚ) : Nat → ℚ → ℚ → ℚ → ℚ
  | 0, f, _, _ => f
  | o + 1, f, amp, freq =>
    fbmAux seed fx fy fz lac gain o
      (f + amp * noise seed (fx * freq * 8) (fy * freq * 8) (fz * freq * 8))
      (amp * gain) (freq * lac)

/-- The fBm sum after the full loop: `f = 0, amp = 1, freq = 1` initially. -/
def fbm (seed octaves : Nat) (lac gain fx fy fz : ℚ) : ℚ :=
  fbmAux seed fx fy fz lac gain octaves 0 1 1

/-- One voxel of `make3DNoiseTex`: `fx = x * invN` with `invN = 1/N`,
`f = clamp01(fbm / 1.5f)`, stored as `(unsigned char)std::round(f * 255.0f)`
(the unsigned-char conversion is reduction mod 256). -/
def bakeByte (seed N octaves : Nat) (lac gain : ℚ) (x y z : Nat) : Nat :=
  let invN : ℚ := 1 / (N : ℚ)
  let fx := (x : ℚ) * invN
  let fy := (y : ℚ) * invN
  let fz := (z : ℚ) * invN
  let f := clamp01 (fbm seed octaves lac gain fx fy fz / 1.5)
  (roundAway (f * 255) % 256).toNat

/-- The voxel grid in the order the triple loop writes it:
`vox[(z*N + y)*N + x]`, i.e. `x` fastest, then `y`, then `z`. -/
def bakeGrid (seed N octaves : Nat) (lac gain : ℚ) : List Nat :=
  (List.range N).flatMap fun z =>
    (List.range N).flatMap fun y =>
      (List.range N).map fun x => bakeByte seed N octaves lac gain x y z

/-- Stated from the claim/spec: the fBm sum `S` with amplitude `gain^o` and
frequency `lacunarity^o` at octave `o`, sampling `noise(freq*8*fx, …)`. -/
def fbmSpec (seed octaves : Nat) (lac gain fx fy fz : ℚ) : ℚ :=
  ∑ o ∈ Finset.range octaves,
    gain ^ o * noise seed (lac ^ o * 8 * fx) (lac ^ o * 8 * fy) (lac ^ o * 8 * fz)

/-! ## Smoke fragment shader — `FRAG_SMOKE` (Main.cpp lines 251–289) -/

/-- GLSL `clamp(x, lo, hi) = min(max(x, lo), hi)`. -/
def clampQ (x lo hi : ℚ) : ℚ := min (max x lo) hi

/-- GLSL `smoothstep(e0, e1, x)`: clamp the normalized position to `[0,1]`,
then `t*t*(3 - 2*t)`. -/
def smoothstepQ (e0 e1 x : ℚ) : ℚ :=
  let t := clampQ ((x - e0) / (e1 - e0)) 0 1
  t * t * (3 - 2 * t)

/-- Smoke density, lines 281–282: `fadeUp = smoothstep(0,1,uv.y)`;
`density = clamp(n*1.2 - 0.25 + (1.0 - fadeUp)*0.15, 0.0, 1.0)`,
as a function of the sampled noise `n` and the vertical coordinate `v`. -/
def smokeDensity (n v : ℚ) : ℚ :=
  let fadeUp := smoothstepQ 0 1 v
  clampQ (n * 1.2 - 0.25 + (1 - fadeUp) * 0.15) 0 1

/-- Smoke wave term, lines 265–266:
`wave = sin(uv.y*8.0 + uTime*0.8)*0.1 + sin(uv.y*3.5 + uTime*0.4)*0.05`.
Over `ℝ` because of `sin`. -/
noncomputable def smokeWave (v t : ℝ) : ℝ :=
  Real.sin (v * 8 + t * 0.8) * 0.1 + Real.sin (v * 3.5 + t * 0.4) * 0.05

/-- The 3D texture coordinate the smoke shader samples, lines 276–277:
`z = uTime * uSpeed; p = vec3(uv.x * uScale + wave, uv.y * uScale, z)`. -/
noncomputable def smokeSamplePoint (u v t scale speed : ℝ) : ℝ × ℝ × ℝ :=
  (u * scale + smokeWave v t, v * scale, t * speed)

/-! ## Keyboard tuning — the "quick controls" block (Main.cpp lines 334–343) -/

/-- The five live-tunable parameters. -/
structure Tunables where
  smokeScale : ℚ
  fireScale : ℚ
  smokeSpeed : ℚ
  fireSpeed : ℚ
  fireHeight : ℚ
deriving Repr, DecidableEq

/-- Which of the ten tuning keys are pressed during one loop iteration. -/
structure KeyState where
  lbracket : Bool
  rbracket : Bool
  minus : Bool
  equal : Bool
  keyW : Bool
  keyS : Bool
  keyD : Bool
  keyA : Bool
  key1 : Bool
  key2 : Bool
deriving Repr, DecidableEq

/-- One pass over the ten `if (glfwGetKey(...) == GLFW_PRESS)` lines, in
source order. -/
def updateTunables (k : KeyState) (t : Tunables) : Tunables :=
  let ss := if k.lbracket then max 0.5 (t.smokeScale - 0.01) else t.smokeScale
  let ss := if k.rbracket then min 6.0 (ss + 0.01) else ss
  let fs := if k.minus then max 0.8 (t.fireScale - 0.01) else t.fireScale
  let fs := if k.equal then min 6.0 (fs + 0.01) else fs
  let sv := if k.keyW then min 0.8 (t.smokeSpeed + 0.001) else t.smokeSpeed
  let sv := if k.keyS then max 0.02 (sv - 0.001) else sv
  let fv := if k.keyD then min 2.0 (t.fireSpeed + 0.005) else t.fireSpeed
  let fv := if k.keyA then max 0.05 (fv - 0.005) else fv
  let fh := if k.key1 then max 0.3 (t.fireHeight - 0.005) else t.fireHeight
  let fh := if k.key2 then min 0.9 (fh + 0.005) else fh
  { smokeScale := ss, fireScale := fs, smokeSpeed := sv, fireSpeed := fv, fireHeight := fh }

/-- The documented `[min,max]` ranges of the five tunables. -/
def TunablesInRange (t : Tunables) : Prop :=
  0.5 ≤ t.smokeScale ∧ t.smokeScale ≤ 6.0 ∧
  0.8 ≤ t.fireScale ∧ t.fireScale ≤ 6.0 ∧
  0.02 ≤ t.smokeSpeed ∧ t.smokeSpeed ≤ 0.8 ∧
  0.05 ≤ t.fireSpeed ∧ t.fireSpeed ≤ 2.0 ∧
  0.3 ≤ t.fireHeight ∧ t.fireHeight ≤ 0.9

/-! ## Compositing — blend state of the two draws (Main.cpp lines 359–387) -/

/-- Fire draw blend state `glBlendFunc(GL_SRC_ALPHA, GL_ONE)`: `out = dst + src*srcAlpha`. -/
def blendAdditive (dst src srcAlpha : ℚ) : ℚ := dst + src * srcAlpha

/-- Smoke draw blend state `glBlendFunc(GL_SRC_ALPHA, GL_ONE_MINUS_SRC_ALPHA)`:
`out = src*srcAlpha + dst*(1 - srcAlpha)`. -/
def blendAlpha (dst src srcAlpha : ℚ) : ℚ := src * srcAlpha + dst * (1 - srcAlpha)

/-- The source's draw order: fire additively, then smoke with straight alpha. -/
def fireThenSmoke (dst fireCol fireAlpha smokeCol smokeAlpha : ℚ) : ℚ :=
  blendAlpha (blendAdditive dst fireCol fireAlpha) smokeCol smokeAlpha

/-- The reversed order: smoke with straight alpha, then fire additively. -/
def smokeThenFire (dst fireCol fireAlpha smokeCol smokeAlpha : ℚ) : ℚ :=
  blendAdditive (blendAlpha dst smokeCol smokeAlpha) fireCol fireAlpha

/-! ## Table lemmas -/

/-- A default-0 read from a list of bytes is a byte. -/
theorem getD_lt_of_mem_lt {l : List Nat} (h : ∀ x ∈ l, x < 256) (i : Nat) :
    l.getD i 0 < 256 := by
  induction l generalizing i with
  | nil => simp [List.getD]
  | cons a t ih =>
    cases i with
    | zero => exact h a (by simp)
    | succ n =>
      rw [List.getD_cons_succ]
      exact ih (fun x hx => h x (by simp [hx])) n

/-- Swapping keeps every element below 256. -/
theorem swapL_mem_lt {l : List Nat} (h : ∀ x ∈ l, x < 256) (i j : Nat) :
    ∀ x ∈ swapL l i j, x < 256 := by
  intro x hx
  unfold swapL at hx
  rcases List.mem_or_eq_of_mem_set hx with hx1 | rfl
  · rcases List.mem_or_eq_of_mem_set hx1 with hx2 | rfl
    · exact h _ hx2
    · exact getD_lt_of_mem_lt h j
  · exact getD_lt_of_mem_lt h i

/-- The shuffle keeps every element below 256. -/
theorem shuffleAux_mem_lt :
    ∀ (k s : Nat) (l : List Nat), (∀ x ∈ l, x < 256) → ∀ x ∈ shuffleAux k s l, x < 256 := by
  intro k
  induction k with
  | zero => intro s l h; simpa [shuffleAux] using h
  | succ n ih =>
    intro s l h
    simpa [shuffleAux] using ih _ _ (swapL_mem_lt h _ _)

/-- Every entry of the shuffled permutation is below 256. -/
theorem permList_mem_lt (seed : Nat) : ∀ x ∈ permList seed, x < 256 := by
  unfold permList
  exact shuffleAux_mem_lt 255 _ _ (fun x hx => List.mem_range.mp hx)

/-- Every read of the doubled table yields a byte. -/
theorem pTable_lt (seed i : Nat) : pTable seed i < 256 :=
  getD_lt_of_mem_lt (permList_mem_lt seed) _

/-- The doubled table repeats with period 256. -/
theorem pTable_period (seed i : Nat) : pTable seed i = pTable seed (i + 256) := by
  unfold pTable
  rw [Nat.add_mod_right]

/-- C10. Permutation-table indexing safety: for every seed, every element of
the 512-entry table `p` lies in `[0,255]` and `p[i] = p[i+256]` for `i < 256`;
consequently every index `Perlin3D::noise` computes (`X`, `X+1`, `A`, `A+1`,
`B`, `B+1`, `AA`, `AA+1`, `AB`, `AB+1`, `BA`, `BA+1`, `BB`, `BB+1`) stays
within `[0,511]`, so no table access is out of bounds. -/
theorem pTable_index_safety (seed : Nat) :
    (∀ i, i < 512 → pTable seed i ≤ 255) ∧
    (∀ i, i < 256 → pTable seed i = pTable seed (i + 256)) ∧
    (∀ X Y Z, X ≤ 255 → Y ≤ 255 → Z ≤ 255 →
      X ≤ 511 ∧ X + 1 ≤ 511 ∧
      pTable seed X + Y ≤ 511 ∧ pTable seed X + Y + 1 ≤ 511 ∧
      pTable seed (X + 1) + Y ≤ 511 ∧ pTable seed (X + 1) + Y + 1 ≤ 511 ∧
      pTable seed (pTable seed X + Y) + Z ≤ 511 ∧
      pTable seed (pTable seed X + Y) + Z + 1 ≤ 511 ∧
      pTable seed (pTable seed X + Y + 1) + Z ≤ 511 ∧
      pTable seed (pTable seed X + Y + 1) + Z + 1 ≤ 511 ∧
      pTable seed (pTable seed (X + 1) + Y) + Z ≤ 511 ∧
      pTable seed (pTable seed (X + 1) + Y) + Z + 1 ≤ 511 ∧
      pTable seed (pTable seed (X + 1) + Y + 1) + Z ≤ 511 ∧
      pTable seed (pTable seed (X + 1) + Y + 1) + Z + 1 ≤ 511) := by
  refine ⟨fun i _ => Nat.lt_succ_iff.mp (pTable_lt seed i),
          fun i _ => pTable_period seed i, ?_⟩
  intro X Y Z hX hY hZ
  have h1 := pTable_lt seed X
  have h2 := pTable_lt seed (X + 1)
  have h3 := pTable_lt seed (pTable seed X + Y)
  have h4 := pTable_lt seed (pTable seed X + Y + 1)
  have h5 := pTable_lt seed (pTable seed (X + 1) + Y)
  have h6 := pTable_lt seed (pTable seed (X + 1) + Y + 1)
  omega

/-- Witness for C10 at `seed = 1337`, `i = 7`. -/
theorem pTable_index_safety_witness :
    pTable 1337 7 ≤ 255 ∧ pTable 1337 7 = pTable 1337 263 :=
  ⟨(pTable_index_safety 1337).1 7 (by decide),
   (pTable_index_safety 1337).2.1 7 (by decide)⟩

/-! ## Lattice points (C3) -/

/-- The gradient dot-product with the zero offset vector vanishes for every
hash value. -/
theorem grad_zero (h : Nat) : grad h 0 0 0 = 0 := by
  simp [grad]

/-- C3. Lattice-point value: at integer coordinates all fractional offsets are
zero, the interpolation weights `fade 0` are zero, the surviving corner
dot-product is `grad _ 0 0 0 = 0`, and `0.5 * (0 + 1) = 1/2` — so
`Perlin3D::noise` returns exactly `0.5` for every seed. -/
theorem noise_int_eq_half (seed : Nat) (a b c : ℤ) :
    noise seed (a : ℚ) (b : ℚ) (c : ℚ) = 1 / 2 := by
  have fade0 : fade 0 = 0 := by norm_num [fade]
  simp only [noise, Int.floor_intCast, sub_self]
  simp only [noiseCore, lerp, fade0, mul_zero, add_zero, grad_zero]
  norm_num

/-! ## Periodicity (C4) -/

/-- Shifting one coordinate by 256 leaves both the wrapped lattice cell and the
fractional offset unchanged. -/
theorem floor_shift_256 (x : ℚ) :
    (⌊x + 256⌋ % 256).toNat = (⌊x⌋ % 256).toNat ∧
    (x + 256) - (⌊x + 256⌋ : ℚ) = x - (⌊x⌋ : ℚ) := by
  have h : ⌊x + 256⌋ = ⌊x⌋ + 256 := by
    rw [show (256 : ℚ) = ((256 : ℤ) : ℚ) by norm_num, Int.floor_add_int]
  constructor
  · rw [h]; congr 1; omega
  · rw [h]; push_cast; ring

/-- C4. Periodicity: the noise field is 256-periodic on each axis, for all
rational inputs (including negative ones, where `floorf` floors toward
negative infinity), because the lattice cell is wrapped mod 256 before the
table lookups and the fractional offset is unchanged by a shift of 256. -/
theorem noise_periodic (seed : Nat) (x y z : ℚ) :
    noise seed (x + 256) y z = noise seed x y z ∧
    noise seed x (y + 256) z = noise seed x y z ∧
    noise seed x y (z + 256) = noise seed x y z := by
  obtain ⟨hx1, hx2⟩ := floor_shift_256 x
  obtain ⟨hy1, hy2⟩ := floor_shift_256 y
  obtain ⟨hz1, hz2⟩ := floor_shift_256 z
  refine ⟨?_, ?_, ?_⟩ <;> simp only [noise, hx1, hx2, hy1, hy2, hz1, hz2]

/-! ## Determinism (C1) -/

/-- C1. Determinism/reproducibility: the permutation table is a function of
the seed alone, `Perlin3D::noise` is a function of `(seed, x, y, z)` alone,
and the bake loop's voxel grid is a function of
`(N, octaves, lacunarity, gain, seed)` alone — equal inputs give identical
outputs on any two calls or executions. -/
theorem noise_bake_deterministic
    (s₁ s₂ N₁ N₂ o₁ o₂ : Nat) (l₁ g₁ l₂ g₂ x₁ y₁ z₁ x₂ y₂ z₂ : ℚ)
    (hs : s₁ = s₂) (hN : N₁ = N₂) (ho : o₁ = o₂) (hl : l₁ = l₂) (hg : g₁ = g₂)
    (hx : x₁ = x₂) (hy : y₁ = y₂) (hz : z₁ = z₂) :
    (∀ i, pTable s₁ i = pTable s₂ i) ∧
    noise s₁ x₁ y₁ z₁ = noise s₂ x₂ y₂ z₂ ∧
    bakeGrid s₁ N₁ o₁ l₁ g₁ = bakeGrid s₂ N₂ o₂ l₂ g₂ := by
  subst hs hN ho hl hg hx hy hz
  exact ⟨fun _ => rfl, rfl, rfl⟩

/-- Witness for C1 at the program's own bake call
`make3DNoiseTex(96, 5, 2.01f, 0.52f, 42)`. -/
theorem noise_bake_deterministic_witness :
    (∀ i, pTable 42 i = pTable 42 i) ∧
    noise 42 1 2 3 = noise 42 1 2 3 ∧
    bakeGrid 42 96 5 2.01 0.52 = bakeGrid 42 96 5 2.01 0.52 :=
  noise_bake_deterministic 42 42 96 96 5 5 2.01 0.52 2.01 0.52 1 2 3 1 2 3
    rfl rfl rfl rfl rfl rfl rfl rfl

/-! ## Compositing order (C9) -/

/-- C9. Compositing order non-commutativity: with additive blending for fire
and straight alpha blending for smoke (the source's two `glBlendFunc` states),
there are fragment values and a destination color for which drawing fire
first then smoke differs from the reverse order. -/
theorem blend_order_matters :
    ∃ dst fireCol fireAlpha smokeCol smokeAlpha : ℚ,
      fireThenSmoke dst fireCol fireAlpha smokeCol smokeAlpha ≠
      smokeThenFire dst fireCol fireAlpha smokeCol smokeAlpha := by
  refine ⟨0, 1, 1, 0, 1/2, ?_⟩
  norm_num [fireThenSmoke, smokeThenFire, blendAdditive, blendAlpha]

/-! ## Keyboard clamp invariant (C8) -/

/-- A guarded decrement-with-floor stays inside `[lo, hi]`. -/
theorem ifClampDec (b : Bool) {lo hi s d : ℚ} (hd : 0 ≤ d) (h1 : lo ≤ s) (h2 : s ≤ hi) :
    lo ≤ (if b then max lo (s - d) else s) ∧ (if b then max lo (s - d) else s) ≤ hi := by
  constructor <;> split
  · exact le_max_left _ _
  · exact h1
  · exact max_le (h1.trans h2) (by linarith)
  · exact h2

/-- A guarded increment-with-ceiling stays inside `[lo, hi]`. -/
theorem ifClampInc (b : Bool) {lo hi s d : ℚ} (hd : 0 ≤ d) (h1 : lo ≤ s) (h2 : s ≤ hi) :
    lo ≤ (if b then min hi (s + d) else s) ∧ (if b then min hi (s + d) else s) ≤ hi := by
  constructor <;> split
  · exact le_min (h1.trans h2) (by linarith)
  · exact h1
  · exact min_le_left _ _
  · exact h2

/-- One iteration of the key-handling block preserves the documented ranges. -/
theorem updateTunables_inRange (k : KeyState) (t : Tunables) (h : TunablesInRange t) :
    TunablesInRange (updateTunables k t) := by
  obtain ⟨h1, h2, h3, h4, h5, h6, h7, h8, h9, h10⟩ := h
  have a1 := ifClampDec k.lbracket (d := 0.01) (by norm_num) h1 h2
  have a2 := ifClampInc k.rbracket (d := 0.01) (by norm_num) a1.1 a1.2
  have b1 := ifClampDec k.minus (d := 0.01) (by norm_num) h3 h4
  have b2 := ifClampInc k.equal (d := 0.01) (by norm_num) b1.1 b1.2
  have c1 := ifClampInc k.keyW (d := 0.001) (by norm_num) h5 h6
  have c2 := ifClampDec k.keyS (d := 0.001) (by norm_num) c1.1 c1.2
  have d1 := ifClampInc k.keyD (d := 0.005) (by norm_num) h7 h8
  have d2 := ifClampDec k.keyA (d := 0.005) (by norm_num) d1.1 d1.2
  have e1 := ifClampDec k.key1 (d := 0.005) (by norm_num) h9 h10
  have e2 := ifClampInc k.key2 (d := 0.005) (by norm_num) e1.1 e1.2
  exact ⟨a2.1, a2.2, b2.1, b2.2, c2.1, c2.2, d2.1, d2.2, e2.1, e2.2⟩

/-- C8. Tuning-clamp invariant: after every iteration of the input-update
block, each live-tunable parameter stays in its documented range —
smokeScale in [0.5, 6.0], fireScale in [0.8, 6.0], smokeSpeed in [0.02, 0.8],
fireSpeed in [0.05, 2.0], fireHeight in [0.3, 0.9] — for every sequence of
key presses, provided it starts in range. -/
theorem tunables_clamped (ks : List KeyState) (t : Tunables) (h : TunablesInRange t) :
    TunablesInRange (ks.foldl (fun acc k => updateTunables k acc) t) := by
  induction ks generalizing t with
  | nil => simpa using h
  | cons k ks ih => exact ih (updateTunables k t) (updateTunables_inRange k t h)

/-- Witness for C8: the program's initial values, one frame with half the keys
held. -/
theorem tunables_clamped_witness :
    TunablesInRange (List.foldl (fun acc k => updateTunables k acc)
      ⟨2.2, 3.2, 0.18, 0.75, 0.55⟩
      [⟨true, false, true, false, true, false, true, false, true, false⟩]) :=
  tunables_clamped _ _ (by norm_num [TunablesInRange])

/-! ## Smoke density shaping (C6) -/

/-- Clamping is monotone in its argument. -/
theorem clampQ_le_clampQ {x y lo hi : ℚ} (h : x ≤ y) : clampQ x lo hi ≤ clampQ y lo hi :=
  min_le_min (max_le_max h (le_refl _)) (le_refl _)

/-- Clamping lands inside `[lo, hi]`. -/
theorem clampQ_mem {lo hi : ℚ} (h : lo ≤ hi) (x : ℚ) :
    lo ≤ clampQ x lo hi ∧ clampQ x lo hi ≤ hi :=
  ⟨le_min (le_max_right _ _) h, min_le_right _ _⟩

/-- The unit smoothstep is monotone. -/
theorem smoothstepQ01_mono {a b : ℚ} (h : a ≤ b) : smoothstepQ 0 1 a ≤ smoothstepQ 0 1 b := by
  simp only [smoothstepQ]
  have hxy : clampQ ((a - 0) / (1 - 0)) 0 1 ≤ clampQ ((b - 0) / (1 - 0)) 0 1 :=
    clampQ_le_clampQ (by simpa using h)
  have hxb := clampQ_mem (by norm_num : (0:ℚ) ≤ 1) ((a - 0) / (1 - 0))
  have hyb := clampQ_mem (by norm_num : (0:ℚ) ≤ 1) ((b - 0) / (1 - 0))
  set x := clampQ ((a - 0) / (1 - 0)) 0 1
  set y := clampQ ((b - 0) / (1 - 0)) 0 1
  obtain ⟨hx0, hx1⟩ := hxb
  obtain ⟨hy0, hy1⟩ := hyb
  nlinarith [mul_nonneg (mul_nonneg (sub_nonneg.mpr hxy) hx0)
               (show (0:ℚ) ≤ 3 - 2 * x - y by linarith),
             mul_nonneg (mul_nonneg (sub_nonneg.mpr hxy) hy0)
               (show (0:ℚ) ≤ 3 - 2 * y - x by linarith)]

/-- Counterexample to C6 as stated: with the same sampled noise `n = 1/2`,
the smoke density is strictly smaller at the top of the billboard (`v = 1`)
than at the bottom (`v = 0`) — the vertical fade term `(1.0 - fadeUp)*0.15`
brightens the bottom, not the top. -/
theorem smokeDensity_top_dimmer : smokeDensity (1/2) 1 < smokeDensity (1/2) 0 := by
  norm_num [smokeDensity, smoothstepQ, clampQ, max_def, min_def]

/-- C6 amended. Smoke density shaping: the density equals the sampled noise
rescaled as `n*1.2 - 0.25`, brightened near the *bottom* of the billboard
(smaller `v`) by the vertical fade term `(1.0 - smoothstep(0,1,v))*0.15`, and
clamped to `[0,1]`: it is antitone in `v` for fixed noise, and always lies in
`[0,1]`. -/
theorem smokeDensity_fades_up (n v₁ v₂ : ℚ) (h : v₁ ≤ v₂) :
    smokeDensity n v₂ ≤ smokeDensity n v₁ ∧
    0 ≤ smokeDensity n v₁ ∧ smokeDensity n v₁ ≤ 1 := by
  refine ⟨?_, (clampQ_mem (by norm_num) _).1, (clampQ_mem (by norm_num) _).2⟩
  simp only [smokeDensity]
  refine clampQ_le_clampQ ?_
  have := smoothstepQ01_mono h
  linarith

/-- Witness for C6 amended at `n = 1/2`, `v₁ = 0`, `v₂ = 1`. -/
theorem smokeDensity_fades_up_witness :
    smokeDensity (1/2) 1 ≤ smokeDensity (1/2) 0 ∧
    0 ≤ smokeDensity (1/2) 0 ∧ smokeDensity (1/2) 0 ≤ 1 :=
  smokeDensity_fades_up (1/2) 0 1 (by norm_num)

/-! ## Bake formula and output bounds (C5) -/

/-- Source clamp01 lands in the unit interval. -/
theorem clamp01_mem (v : ℚ) : 0 ≤ clamp01 v ∧ clamp01 v ≤ 1 := by
  unfold clamp01
  split_ifs <;> constructor <;> linarith

/-- Rounding a value of `[0, 255]` half away from zero stays in `[0, 255]`. -/
theorem roundAway_mem {q : ℚ} (h0 : 0 ≤ q) (h1 : q ≤ 255) :
    0 ≤ roundAway q ∧ roundAway q ≤ 255 := by
  unfold roundAway
  rw [if_neg (not_lt.mpr h0)]
  constructor
  · exact Int.le_floor.mpr (by push_cast; linarith)
  · have h : ⌊q + 0.5⌋ < (256 : ℤ) := Int.floor_lt.mpr (by push_cast; norm_num; linarith)
    omega

/-- Closed form of the fBm loop: starting from `f`, `amp`, `freq`, running `o`
octaves adds `amp * gain^i` times the noise sampled at frequency
`freq * lac^i * 8`. -/
theorem fbmAux_eq (seed : Nat) (fx fy fz lac gain : ℚ) :
    ∀ (o : Nat) (f amp freq : ℚ),
      fbmAux seed fx fy fz lac gain o f amp freq =
        f + ∑ i ∈ Finset.range o,
          amp * gain ^ i *
            noise seed (fx * (freq * lac ^ i) * 8) (fy * (freq * lac ^ i) * 8)
              (fz * (freq * lac ^ i) * 8) := by
  intro o
  induction o with
  | zero => intro f amp freq; simp [fbmAux]
  | succ k ih =>
    intro f amp freq
    simp only [fbmAux]
    rw [ih, Finset.sum_range_succ']
    have hterm : ∀ i : Nat,
        amp * gain * gain ^ i *
          noise seed (fx * (freq * lac * lac ^ i) * 8) (fy * (freq * lac * lac ^ i) * 8)
            (fz * (freq * lac * lac ^ i) * 8)
        = amp * gain ^ (i + 1) *
          noise seed (fx * (freq * lac ^ (i + 1)) * 8) (fy * (freq * lac ^ (i + 1)) * 8)
            (fz * (freq * lac ^ (i + 1)) * 8) := by
      intro i
      have e : freq * lac * lac ^ i = freq * lac ^ (i + 1) := by ring
      rw [e]; ring
    rw [Finset.sum_congr rfl (fun i _ => hterm i)]
    simp only [pow_zero, mul_one]
    ring

/-- The source fBm loop computes exactly the spec's fBm sum. -/
theorem fbm_eq_fbmSpec (seed octaves : Nat) (lac gain fx fy fz : ℚ) :
    fbm seed octaves lac gain fx fy fz = fbmSpec seed octaves lac gain fx fy fz := by
  unfold fbm fbmSpec
  rw [fbmAux_eq, zero_add]
  refine Finset.sum_congr rfl fun i _ => ?_
  have e1 : fx * (1 * lac ^ i) * 8 = lac ^ i * 8 * fx := by ring
  have e2 : fy * (1 * lac ^ i) * 8 = lac ^ i * 8 * fy := by ring
  have e3 : fz * (1 * lac ^ i) * 8 = lac ^ i * 8 * fz := by ring
  rw [e1, e2, e3, one_mul]

/-- A clamped-and-rounded byte value never exceeds 255. -/
theorem clampByte_le (v : ℚ) : (roundAway (clamp01 v * 255) % 256).toNat ≤ 255 := by
  obtain ⟨hc0, hc1⟩ := clamp01_mem v
  have hq0 : (0 : ℚ) ≤ clamp01 v * 255 := mul_nonneg hc0 (by norm_num)
  have hq1 : clamp01 v * 255 ≤ 255 := by linarith
  obtain ⟨hr0, hr1⟩ := roundAway_mem hq0 hq1
  omega

/-- With the byte in range, the unsigned-char conversion is the identity and
the constant factor commutes. -/
theorem clampByte_eq (v : ℚ) :
    (roundAway (clamp01 v * 255) % 256).toNat = (roundAway (255 * clamp01 v)).toNat := by
  obtain ⟨hc0, hc1⟩ := clamp01_mem v
  have hq0 : (0 : ℚ) ≤ clamp01 v * 255 := mul_nonneg hc0 (by norm_num)
  have hq1 : clamp01 v * 255 ≤ 255 := by linarith
  obtain ⟨hr0, hr1⟩ := roundAway_mem hq0 hq1
  rw [Int.emod_eq_of_lt hr0 (by omega), mul_comm]

/-- Every baked voxel is at most 255, whatever the parameters. -/
theorem bakeByte_le (seed N octaves : Nat) (lac gain : ℚ) (x y z : Nat) :
    bakeByte seed N octaves lac gain x y z ≤ 255 := by
  simp only [bakeByte]
  exact clampByte_le _

/-- C5. Bake formula and output bounds: each baked byte equals
`round(255 * clamp01(S / 1.5))` where `S` is the spec's fBm sum at the
normalized cell coordinates, and every byte of the voxel grid lies in
`[0, 255]` — the unsigned-char store cannot overflow or underflow for any
octave/gain combination. -/
theorem bake_formula_and_bounds (seed N octaves : Nat) (lac gain : ℚ) (x y z : Nat)
    (_hx : x < N) (_hy : y < N) (_hz : z < N) :
    bakeByte seed N octaves lac gain x y z =
      (roundAway (255 * clamp01
        (fbmSpec seed octaves lac gain ((x : ℚ) / N) ((y : ℚ) / N) ((z : ℚ) / N) / 1.5))).toNat ∧
    bakeByte seed N octaves lac gain x y z ≤ 255 ∧
    ∀ b ∈ bakeGrid seed N octaves lac gain, b ≤ 255 := by
  refine ⟨?_, bakeByte_le seed N octaves lac gain x y z, ?_⟩
  · simp only [bakeByte, mul_one_div]
    rw [fbm_eq_fbmSpec]
    exact clampByte_eq _
  · intro b hb
    simp only [bakeGrid, List.mem_flatMap, List.mem_map] at hb
    obtain ⟨zc, _, yc, _, xc, _, rfl⟩ := hb
    exact bakeByte_le seed N octaves lac gain xc yc zc

/-- Witness for C5 at the program's bake parameters, cell `(0, 1, 2)` of the
96-cube. -/
theorem bake_formula_and_bounds_witness :
    bakeByte 42 96 5 2.01 0.52 0 1 2 =
      (roundAway (255 * clamp01
        (fbmSpec 42 5 2.01 0.52 ((0 : ℚ) / 96) ((1 : ℚ) / 96) ((2 : ℚ) / 96) / 1.5))).toNat ∧
    bakeByte 42 96 5 2.01 0.52 0 1 2 ≤ 255 ∧
    ∀ b ∈ bakeGrid 42 96 5 2.01 0.52, b ≤ 255 :=
  bake_formula_and_bounds 42 96 5 2.01 0.52 0 1 2 (by decide) (by decide) (by decide)

/-! ## Noise range (C2) -/

/-- Quintic fade maps `[0,1]` into `[0,1]`. -/
theorem fade_mem {t : ℚ} (h0 : 0 ≤ t) (h1 : t ≤ 1) : 0 ≤ fade t ∧ fade t ≤ 1 := by
  have h1t : (0 : ℚ) ≤ 1 - t := sub_nonneg.mpr h1
  constructor
  · unfold fade
    nlinarith [mul_nonneg (mul_nonneg h0 h0) h0,
               mul_nonneg (mul_nonneg (mul_nonneg h0 h0) h0) (sq_nonneg (4 * t - 5))]
  · have hq : (0 : ℚ) ≤ 6 * t ^ 2 + 3 * t + 1 := by nlinarith [sq_nonneg t]
    unfold fade
    nlinarith [mul_nonneg (mul_nonneg (mul_nonneg h1t h1t) h1t) hq]

/-- The gradient dot-product is bounded by 2 when every offset lies in
`[-1, 1]`. -/
theorem grad_mem (h : Nat) {a b c : ℚ}
    (ha0 : -1 ≤ a) (ha1 : a ≤ 1) (hb0 : -1 ≤ b) (hb1 : b ≤ 1) (hc0 : -1 ≤ c) (hc1 : c ≤ 1) :
    -2 ≤ grad h a b c ∧ grad h a b c ≤ 2 := by
  simp only [grad]
  split_ifs <;> constructor <;> linarith

/-- Interpolation with a weight in `[0,1]` stays between the endpoint bounds. -/
theorem lerp_mem {a b t lo hi : ℚ} (ha0 : lo ≤ a) (ha1 : a ≤ hi) (hb0 : lo ≤ b) (hb1 : b ≤ hi)
    (ht0 : 0 ≤ t) (ht1 : t ≤ 1) : lo ≤ lerp a b t ∧ lerp a b t ≤ hi := by
  unfold lerp
  constructor
  · nlinarith [mul_nonneg (sub_nonneg.mpr hb0) ht0,
               mul_nonneg (sub_nonneg.mpr ha0) (sub_nonneg.mpr ht1)]
  · nlinarith [mul_nonneg (sub_nonneg.mpr hb1) ht0,
               mul_nonneg (sub_nonneg.mpr ha1) (sub_nonneg.mpr ht1)]

set_option maxHeartbeats 1000000 in
/-- The interpolated gradient sum lies in `[-2, 2]`, so the rescaled result
lies in `[-1/2, 3/2]`, for any table and any fractional offsets in `[0,1]`. -/
theorem noiseCore_mem (p : Nat → Nat) (X Y Z : Nat) {xf yf zf : ℚ}
    (hx0 : 0 ≤ xf) (hx1 : xf ≤ 1) (hy0 : 0 ≤ yf) (hy1 : yf ≤ 1)
    (hz0 : 0 ≤ zf) (hz1 : zf ≤ 1) :
    -(1/2) ≤ noiseCore p X Y Z xf yf zf ∧ noiseCore p X Y Z xf yf zf ≤ 3/2 := by
  simp only [noiseCore]
  obtain ⟨hu0, hu1⟩ := fade_mem hx0 hx1
  obtain ⟨hv0, hv1⟩ := fade_mem hy0 hy1
  obtain ⟨hw0, hw1⟩ := fade_mem hz0 hz1
  have hxa : -1 ≤ xf := by linarith
  have hxb : -1 ≤ xf - 1 := by linarith
  have hxc : xf - 1 ≤ 1 := by linarith
  have hya : -1 ≤ yf := by linarith
  have hyb : -1 ≤ yf - 1 := by linarith
  have hyc : yf - 1 ≤ 1 := by linarith
  have hza : -1 ≤ zf := by linarith
  have hzb : -1 ≤ zf - 1 := by linarith
  have hzc : zf - 1 ≤ 1 := by linarith
  have g1 := grad_mem (p (p (p X + Y) + Z)) hxa hx1 hya hy1 hza hz1
  have g2 := grad_mem (p (p (p (X + 1) + Y) + Z)) hxb hxc hya hy1 hza hz1
  have g3 := grad_mem (p (p (p X + Y + 1) + Z)) hxa hx1 hyb hyc hza hz1
  have g4 := grad_mem (p (p (p (X + 1) + Y + 1) + Z)) hxb hxc hyb hyc hza hz1
  have g5 := grad_mem (p (p (p X + Y) + Z + 1)) hxa hx1 hya hy1 hzb hzc
  have g6 := grad_mem (p (p (p (X + 1) + Y) + Z + 1)) hxb hxc hya hy1 hzb hzc
  have g7 := grad_mem (p (p (p X + Y + 1) + Z + 1)) hxa hx1 hyb hyc hzb hzc
  have g8 := grad_mem (p (p (p (X + 1) + Y + 1) + Z + 1)) hxb hxc hyb hyc hzb hzc
  have l1 := lerp_mem g1.1 g1.2 g2.1 g2.2 hu0 hu1
  have l2 := lerp_mem g3.1 g3.2 g4.1 g4.2 hu0 hu1
  have l3 := lerp_mem g5.1 g5.2 g6.1 g6.2 hu0 hu1
  have l4 := lerp_mem g7.1 g7.2 g8.1 g8.2 hu0 hu1
  have m1 := lerp_mem l1.1 l1.2 l2.1 l2.2 hv0 hv1
  have m2 := lerp_mem l3.1 l3.2 l4.1 l4.2 hv0 hv1
  have r := lerp_mem m1.1 m1.2 m2.1 m2.2 hw0 hw1
  constructor <;> linarith [r.1, r.2]

/-- C2 amended. Range: for every seed and rational input, `Perlin3D::noise`
returns a value in `[-1/2, 3/2]` (each corner dot-product is bounded by 2 in
magnitude and the trilinear interpolation cannot escape those bounds before
the `0.5*(res+1)` rescale); the claimed interval `[0,1]` is violated at some
inputs. -/
theorem noise_mem (seed : Nat) (x y z : ℚ) :
    -(1/2) ≤ noise seed x y z ∧ noise seed x y z ≤ 3/2 := by
  unfold noise
  exact noiseCore_mem (pTable seed) _ _ _
    (Int.fract_nonneg x) (Int.fract_lt_one x).le
    (Int.fract_nonneg y) (Int.fract_lt_one y).le
    (Int.fract_nonneg z) (Int.fract_lt_one z).le

set_option maxRecDepth 10000 in
/-- Counterexample to C2 as stated: at seed 1 and input
`(x, y, z) = (164.5, 35.5, 166.35)` the noise value is
`65128813/64000000 ≈ 1.0176 > 1`, outside the claimed interval `[0, 1]`. -/
theorem noise_exceeds_one : 1 < noise 1 (329 / 2) (71 / 2) (3327 / 20) := by
  have h : noise 1 (329 / 2) (71 / 2) (3327 / 20) = 65128813 / 64000000 := by
    with_unfolding_all rfl
  rw [h]
  norm_num

/-! ## Smoke sampling coordinate (C7) -/

/-- Counterexample to C7 as stated: at `u = 0`, `v = 0`, `time = 5π/8`,
`uScale = 2` the wave term is `0.1 + √2/40 > 0`, and the sampled x coordinate
`u*uScale + wave` differs from the claimed `(u + wave)*uScale`. -/
theorem smokeSampleX_not_prescaled :
    (smokeSamplePoint 0 0 (5 * Real.pi / 8) 2 1).1 ≠
      (0 + smokeWave 0 (5 * Real.pi / 8)) * 2 := by
  have h1 : (0 : ℝ) * 8 + 5 * Real.pi / 8 * 0.8 = Real.pi / 2 := by ring
  have h2 : (0 : ℝ) * 3.5 + 5 * Real.pi / 8 * 0.4 = Real.pi / 4 := by ring
  have hw : 0 < smokeWave 0 (5 * Real.pi / 8) := by
    unfold smokeWave
    rw [h1, h2, Real.sin_pi_div_two, Real.sin_pi_div_four]
    positivity
  simp only [smokeSamplePoint]
  intro hEq
  nlinarith [hw, hEq]

/-- C7 amended. Smoke sampling coordinate: the horizontal axis is scaled by
`uScale` first and then offset by the wave term (`u*uScale + wave`), which
agrees with the claimed `(u + wave)*uScale` exactly when the wave vanishes or
`uScale = 1`; the depth axis equals `time * speed` as claimed. -/
theorem smokeSamplePoint_eq (u v t scale speed : ℝ) :
    (smokeSamplePoint u v t scale speed).1 = u * scale + smokeWave v t ∧
    ((smokeSamplePoint u v t scale speed).1 = (u + smokeWave v t) * scale ↔
      smokeWave v t = 0 ∨ scale = 1) ∧
    (smokeSamplePoint u v t scale speed).2.2 = t * speed := by
  refine ⟨rfl, ?_, rfl⟩
  simp only [smokeSamplePoint]
  constructor
  · intro hEq
    have hfac : smokeWave v t * (1 - scale) = 0 := by ring_nf; ring_nf at hEq; linarith
    rcases mul_eq_zero.mp hfac with h | h
    · exact Or.inl h
    · exact Or.inr (by linarith)
  · intro h
    rcases h with h | h
    · rw [h]; ring
    · rw [h]; ring

end FireSmoke
